import Mathlib

/-!
Verification of the geo-tiled place scraper (`google_maps_scraper.py`).

The Python source is shallowly embedded below:

* untyped Python data (the decoded response payload) becomes the inductive
  type `PyVal`; Python indexing (`data[key]`, raising `IndexError`,
  `TypeError` or `KeyError`) becomes the `Option`-valued `pyIndex`;
* `safe_get`, `clean_and_parse_json`, the rating/review-count extraction of
  `parse_place_from_structure`, `apply_rate_limiting`, the Web-Mercator tile
  conversions, `calculate_tile_radius`, `generate_tile_coordinates`,
  `get_zoom_levels` and the accumulation/zoom-sweep loop of `search_places`
  are translated function by function;
* the external JSON / Python-literal decoders (`json.loads`,
  `ast.literal_eval`) are parameters of the embedding, and the network is a
  per-tile oracle delivering either a list of extracted places or a failure.

Floating-point values of the source are modelled as exact rationals or
reals; machine behaviour of `float` is not modelled.
-/

namespace GoogleMapsScraper

/-- Untyped Python-like values, as produced by decoding a raw response
payload: `None`, numbers, strings, lists and string-keyed dicts. -/
inductive PyVal where
  | pynone : PyVal
  | num : ℚ → PyVal
  | str : String → PyVal
  | list : List PyVal → PyVal
  | dict : List (String × PyVal) → PyVal

/-- A key used to subscript a Python value: an integer index or a string
key (the only key shapes occurring in the source's `safe_get` paths). -/
inductive PyKey where
  | int : ℤ → PyKey
  | str : String → PyKey

/-- One Python subscript `data[key]`.  Returns `none` exactly when CPython
would raise `IndexError` (sequence index out of range), `TypeError`
(unsubscriptable value or wrong key type) or `KeyError` (missing dict key).
List and string indices support Python's negative-index convention. -/
def pyIndex (data : PyVal) (key : PyKey) : Option PyVal :=
  match data, key with
  | .list l, .int i =>
      let j : ℤ := if i < 0 then i + l.length else i
      if 0 ≤ j then l[j.toNat]? else none
  | .str s, .int i =>
      let cs := s.toList
      let j : ℤ := if i < 0 then i + cs.length else i
      if 0 ≤ j then (cs[j.toNat]?).map (fun c => PyVal.str (String.mk [c])) else none
  | .dict kvs, .str k => (kvs.find? (fun kv => kv.1 == k)).map (fun kv => kv.2)
  | _, _ => none

/-- Source `safe_get` (lines 160–167): walk `path` through `data`, returning
`default` as soon as one subscript fails. -/
def safe_get (data : PyVal) (path : List PyKey) (default : PyVal) : PyVal :=
  match path with
  | [] => data
  | key :: rest =>
      match pyIndex data key with
      | some d => safe_get d rest default
      | none => default

/-- Specification-side description of `safe_get`: the whole path is chained
through `pyIndex` by an `Option`-monad fold, and the default fills a failure. -/
def walkPath (data : PyVal) (path : List PyKey) : Option PyVal :=
  path.foldl (fun acc key => acc.bind (fun v => pyIndex v key)) (some data)

theorem walkPath_none (path : List PyKey) :
    path.foldl (fun acc key => acc.bind (fun v => pyIndex v key)) none = none := by
  induction path with
  | nil => rfl
  | cons k rest ih => simpa using ih

/-- Claim C10: `safe_get` is total: it returns the value reached by
successively indexing along the path, and returns the default as soon as any
step fails with an index, type, or key error (all of which `pyIndex` maps to
`none`). -/
theorem c10_safe_get_total :
    ∀ (data : PyVal) (path : List PyKey) (default : PyVal),
      safe_get data path default = (walkPath data path).getD default := by
  intro data path default
  induction path generalizing data with
  | nil => rfl
  | cons key rest ih =>
      show (match pyIndex data key with
            | some d => safe_get d rest default
            | none => default) = _
      cases h : pyIndex data key with
      | some d => simpa [walkPath, h] using ih d
      | none => simp [walkPath, h, walkPath_none]

/-! Response payload decoding (`clean_and_parse_json`, lines 171–197)

Raw response text is modelled as its sequence of code points (`List Char`),
matching Python string slicing and `str.find`. -/

/-- The long anti-scraping sentinel: the Python literal `")]\x7d'\n"`
(close-paren, close-bracket, close-brace, apostrophe, newline). -/
def sentinelLongChars : List Char := [')', ']', '\x7d', '\x27', '\n']

/-- The short anti-scraping sentinel: the Python literal `")]\x7d"`. -/
def sentinelShortChars : List Char := [')', ']', '\x7d']

/-- Sentinel stripping: drop the 5-character long form if present, else the
3-character short form if present, else keep the text. -/
def stripSentinel (raw : List Char) : List Char :=
  if sentinelLongChars.isPrefixOf raw then raw.drop 5
  else if sentinelShortChars.isPrefixOf raw then raw.drop 3
  else raw

/-- The suffix of `s` starting at the first open bracket (`str.find` of the
open bracket followed by slicing); empty exactly when no open bracket
occurs, which is the `find(...) == -1` failure case of the source. -/
def bracketTail (s : List Char) : List Char :=
  s.dropWhile (fun c => c != '[')

/-- Source `clean_and_parse_json`, parameterised by the two external decoders
(`json.loads` and `ast.literal_eval`): strip the sentinel, fail if no open
bracket exists, otherwise try the strict decoder and, only on its failure,
the permissive one. -/
def clean_and_parse_json (strictDecode permissiveDecode : String → Option PyVal)
    (raw : List Char) : Option PyVal :=
  let tail := bracketTail (stripSentinel raw)
  if tail.isEmpty then none
  else
    match strictDecode (String.mk tail) with
    | some v => some v
    | none => permissiveDecode (String.mk tail)

/-- Claim C9: decoding strips a known sentinel if present, returns absent
when no open-bracket character exists, otherwise attempts the strict decode
followed — only on its failure — by the permissive decode; the result is
absent exactly when both decodes fail, and a payload in non-strict literal
syntax still decodes via the fallback path. -/
theorem c9_decode_fallback :
    ∀ (strictDecode permissiveDecode : String → Option PyVal) (raw : List Char),
      (sentinelLongChars.isPrefixOf raw → stripSentinel raw = raw.drop 5) ∧
      (¬ sentinelLongChars.isPrefixOf raw → sentinelShortChars.isPrefixOf raw →
        stripSentinel raw = raw.drop 3) ∧
      (bracketTail (stripSentinel raw) = [] ↔
        ∀ c ∈ stripSentinel raw, c ≠ '[') ∧
      (clean_and_parse_json strictDecode permissiveDecode raw = none ↔
        bracketTail (stripSentinel raw) = [] ∨
          (strictDecode (String.mk (bracketTail (stripSentinel raw))) = none ∧
           permissiveDecode (String.mk (bracketTail (stripSentinel raw))) = none)) ∧
      (bracketTail (stripSentinel raw) ≠ [] →
        ∀ v, strictDecode (String.mk (bracketTail (stripSentinel raw))) = some v →
          clean_and_parse_json strictDecode permissiveDecode raw = some v) ∧
      (bracketTail (stripSentinel raw) ≠ [] →
        strictDecode (String.mk (bracketTail (stripSentinel raw))) = none →
          clean_and_parse_json strictDecode permissiveDecode raw =
            permissiveDecode (String.mk (bracketTail (stripSentinel raw)))) := by
  intro strictDecode permissiveDecode raw
  refine ⟨fun h => by simp [stripSentinel, h], fun h h2 => by simp [stripSentinel, h, h2],
    ?_, ?_, ?_, ?_⟩
  · simp [bracketTail, List.dropWhile_eq_nil_iff]
  · by_cases he : bracketTail (stripSentinel raw) = []
    · simp [clean_and_parse_json, he]
    · cases hs : strictDecode (String.mk (bracketTail (stripSentinel raw))) with
      | some v => simp [clean_and_parse_json, he, hs, List.isEmpty_iff]
      | none => simp [clean_and_parse_json, he, hs, List.isEmpty_iff]
  · intro he v hs
    simp [clean_and_parse_json, List.isEmpty_iff, he, hs]
  · intro he hs
    simp [clean_and_parse_json, List.isEmpty_iff, he, hs]

/-- A strict decoder that always fails (used to witness the fallback path). -/
def noStrict : String → Option PyVal := fun _ => none

/-- A permissive decoder that accepts anything (used to witness the
fallback path). -/
def literalPermissive : String → Option PyVal := fun s => some (PyVal.str s)

/-- Witness for C9: a payload carrying the long sentinel and a non-strict
body decodes through the permissive fallback when the strict decode fails. -/
theorem c9_decode_fallback_witness :
    clean_and_parse_json noStrict literalPermissive
      (sentinelLongChars ++ ['[', '1', ']']) = some (PyVal.str "[1]") := by
  have h := (c9_decode_fallback noStrict literalPermissive
      (sentinelLongChars ++ ['[', '1', ']'])).2.2.2.2.2 (by decide) (by rfl)
  simpa [literalPermissive] using h

/-! Rating and review-count extraction (`parse_place_from_structure`,
lines 328–341 and 386–400) -/

/-- Python `int(x)` on a number: truncation toward zero. -/
def ratTrunc (q : ℚ) : ℤ := if 0 ≤ q then ⌊q⌋ else -⌊-q⌋

/-- Rating from `rating_data = place_data[14][4]`: index 7 must hold a
number within `[0, 5]`, otherwise the rating stays absent (`None`). -/
def ratingOf (rating_data : List PyVal) : Option ℚ :=
  match rating_data[7]? with
  | some (PyVal.num v) => if 0 ≤ v ∧ v ≤ 5 then some v else none
  | _ => none

/-- Review count from `rating_data`: index 8 must hold a number, which is
truncated with `int(...)`; otherwise absent. -/
def reviewsCountOf (rating_data : List PyVal) : Option ℤ :=
  match rating_data[8]? with
  | some (PyVal.num v) => some (ratTrunc v)
  | _ => none

/-- The rating field of `parse_place_from_structure`: requires
`place_data[14]` and `place_data[14][4]` to be lists, then applies
`ratingOf`; in every other case the field stays `None`. -/
def extractRating (place_data : List PyVal) : Option ℚ :=
  match place_data[14]? with
  | some (PyVal.list l14) =>
      match l14[4]? with
      | some (PyVal.list rating_data) => ratingOf rating_data
      | _ => none
  | _ => none

theorem ratingOf_some {rd : List PyVal} {r : ℚ} (h : ratingOf rd = some r) :
    (0 ≤ r ∧ r ≤ 5) ∧ rd[7]? = some (PyVal.num r) := by
  unfold ratingOf at h
  split at h
  case _ v heq =>
    split at h
    case isTrue hv => cases h; exact ⟨hv, heq⟩
    case isFalse hv => cases h
  case _ => cases h

/-- Claim C8: a rating that is absent or fails its `[0, 5]` validator is
represented as absent, never defaulted or clamped: the out-of-range value 7
yields an absent rating, and any produced rating both lies in `[0, 5]` and
is the unmodified payload value found at index 7. -/
theorem c8_rating_validation :
    extractRating (List.replicate 14 PyVal.pynone ++
      [PyVal.list (List.replicate 4 PyVal.pynone ++
        [PyVal.list (List.replicate 7 PyVal.pynone ++ [PyVal.num 7])])]) = none ∧
    (∀ (rd : List PyVal) (r : ℚ), ratingOf rd = some r →
      (0 ≤ r ∧ r ≤ 5) ∧ rd[7]? = some (PyVal.num r)) ∧
    (∀ (pd : List PyVal) (r : ℚ), extractRating pd = some r → 0 ≤ r ∧ r ≤ 5) := by
  refine ⟨by decide, fun rd r h => ratingOf_some h, fun pd r h => ?_⟩
  unfold extractRating at h
  split at h
  case _ l14 heq =>
    split at h
    case _ rd heq2 => exact (ratingOf_some h).1
    case _ => cases h
  case _ => cases h

/-- Witness for C8: an in-range rating 4 at index 7 is produced unmodified,
inside its validity range. -/
theorem c8_rating_validation_witness :
    ((0 : ℚ) ≤ 4 ∧ (4 : ℚ) ≤ 5) ∧
      (List.replicate 7 PyVal.pynone ++ [PyVal.num 4])[7]? = some (PyVal.num 4) :=
  c8_rating_validation.2.1 (List.replicate 7 PyVal.pynone ++ [PyVal.num 4]) 4 (by decide)

/-! Rate limiting (`apply_rate_limiting`, lines 666–687) -/

/-- The mutable rate-limiter state of the scraper object. -/
structure RateLimitState where
  last_request_time : ℚ
  request_count : ℕ

/-- The progressive-delay computation of `apply_rate_limiting`, applied to
the delay drawn uniformly from `[min_delay, max_delay]`.  The source reads
`if request_count > 10: base_delay *= 1.5 elif request_count > 20:
base_delay *= 2.0`, so the second branch is unreachable. -/
def progressiveDelay (request_count : ℕ) (base_delay : ℚ) : ℚ :=
  if 10 < request_count then base_delay * (3 / 2)
  else if 20 < request_count then base_delay * 2
  else base_delay

/-- Source `apply_rate_limiting` as a state transformer: given the current clock
and the drawn uniform delay, return the slept time and the updated state
(the clock advances by the sleep, the request count by one). -/
def apply_rate_limiting (st : RateLimitState) (now drawn_delay : ℚ) :
    ℚ × RateLimitState :=
  let base_delay := progressiveDelay st.request_count drawn_delay
  let elapsed := now - st.last_request_time
  let sleep_time := if elapsed < base_delay then base_delay - elapsed else 0
  (sleep_time, ⟨now + sleep_time, st.request_count + 1⟩)

/-- Claim C3 (code bug): at request counts above 20 the code still
multiplies the drawn delay by 1.5, never by 2.0 — the `elif` branch carrying
the 2.0 factor is shadowed by the `> 10` branch; moreover the sleep is only
the remaining time needed for the computed delay to have elapsed. -/
theorem c3_backoff_multiplier_eval :
    progressiveDelay 21 1 = 3 / 2 ∧
    progressiveDelay 25 1 = 3 / 2 ∧
    (3 / 2 : ℚ) ≠ 2 ∧
    (apply_rate_limiting ⟨0, 21⟩ 1 2).1 = 2 * (3 / 2) - 1 := by
  refine ⟨by norm_num [progressiveDelay], by norm_num [progressiveDelay], by norm_num, ?_⟩
  norm_num [apply_rate_limiting, progressiveDelay]

/-! Web-Mercator tile geometry (lines 721–803) -/

/-- Python `math.radians`: degrees to radians. -/
noncomputable def radiansOf (d : ℝ) : ℝ := d * Real.pi / 180

/-- Python `math.degrees`: radians to degrees. -/
noncomputable def degreesOf (r : ℝ) : ℝ := r * 180 / Real.pi

/-- Python `int(x)` on a real: truncation toward zero. -/
noncomputable def pyTrunc (x : ℝ) : ℤ := if 0 ≤ x then ⌊x⌋ else -⌊-x⌋

/-- Source `lat_lng_to_tile` (lines 721–727): the Web-Mercator tile index of a
geographic point. -/
noncomputable def lat_lng_to_tile (lat lng : ℝ) (zoom : ℕ) : ℤ × ℤ :=
  (pyTrunc ((lng + 180) / 360 * 2 ^ zoom),
   pyTrunc ((1 - Real.arsinh (Real.tan (radiansOf lat)) / Real.pi) / 2 * 2 ^ zoom))

/-- Source `tile_to_lat_lng` (lines 729–735): the geographic point of a tile,
returned as `(lat, lng)`.  (The formula yields the tile's northwest corner:
`x / n * 360 - 180` is the tile's west edge.) -/
noncomputable def tile_to_lat_lng (x y : ℤ) (zoom : ℕ) : ℝ × ℝ :=
  (degreesOf (Real.arctan (Real.sinh (Real.pi * (1 - 2 * (y : ℝ) / 2 ^ zoom)))),
   (x : ℝ) / 2 ^ zoom * 360 - 180)

/-- Modelled from the spec: the longitude of the geometric center of tile
`x` at level `zoom` — the midpoint of the tile's west and east edges.  The
source has no such function; this is the comparison point for the spec's
"geometric center" wording. -/
noncomputable def tileCenterLng (x : ℤ) (zoom : ℕ) : ℝ :=
  ((x : ℝ) + 1 / 2) / 2 ^ zoom * 360 - 180

/-- Source `calculate_tile_radius` (lines 737–752): tiles needed to cover
`radius_km`, floored at 1.  The two center arguments are unused, as in the
source. -/
noncomputable def calculate_tile_radius (center_lat center_lng : ℝ) (zoom : ℕ)
    (radius_km : ℝ) : ℤ :=
  max 1 ⌈radius_km * 1000 / (40075017 / 2 ^ zoom)⌉

/-- Python `range(a, b + 1)` over integers. -/
def intRange (a b : ℤ) : List ℤ :=
  (List.range (b + 1 - a).toNat).map (fun (i : ℕ) => a + (i : ℤ))

/-- Source `generate_tile_coordinates` (lines 788–803): the `(2r+1)²` tile square
around the center tile, row-major in `dx` then `dy`, each tile paired with
its `tile_to_lat_lng` point. -/
noncomputable def generate_tile_coordinates (center_lat center_lng : ℝ) (zoom : ℕ)
    (radius_km : ℝ) : List (ℤ × ℤ × ℝ × ℝ) :=
  let c := lat_lng_to_tile center_lat center_lng zoom
  let tile_radius := calculate_tile_radius center_lat center_lng zoom radius_km
  (intRange (-tile_radius) tile_radius).flatMap (fun dx =>
    (intRange (-tile_radius) tile_radius).map (fun dy =>
      (c.1 + dx, c.2 + dy, (tile_to_lat_lng (c.1 + dx) (c.2 + dy) zoom).1,
        (tile_to_lat_lng (c.1 + dx) (c.2 + dy) zoom).2)))

/-- The sort key of `search_places` line 844: Manhattan distance of a tile
tuple from the center tile. -/
def manhattanKey (center_x center_y : ℤ) (t : ℤ × ℤ × ℝ × ℝ) : ℤ :=
  |t.1 - center_x| + |t.2.1 - center_y|

/-- Line 844, `tiles.sort(key=...)`: a stable sort of the
tile list by ascending Manhattan distance from the center tile. -/
noncomputable def sortTilesByDistance (center_x center_y : ℤ)
    (tiles : List (ℤ × ℤ × ℝ × ℝ)) : List (ℤ × ℤ × ℝ × ℝ) :=
  tiles.mergeSort (fun a b =>
    decide (manhattanKey center_x center_y a ≤ manhattanKey center_x center_y b))

/-- Source `get_zoom_levels` (lines 754–761): the ascending zoom list
`range(max(10, min_zoom), 22)`; the radius argument is unused, as in the
source. -/
def get_zoom_levels (radius_km : ℚ) (min_zoom : ℕ) : List ℕ :=
  List.range' (max 10 min_zoom) (22 - max 10 min_zoom)

theorem pyTrunc_intCast (m : ℤ) : pyTrunc (m : ℝ) = m := by
  unfold pyTrunc
  by_cases h : (0 : ℝ) ≤ (m : ℝ)
  · simp [h]
  · simp [h, ← Int.cast_neg]

theorem intRange_length (a b : ℤ) : (intRange a b).length = (b + 1 - a).toNat := by
  unfold intRange
  rw [List.length_map, List.length_range]

theorem mem_intRange {a b v : ℤ} : v ∈ intRange a b ↔ a ≤ v ∧ v ≤ b := by
  unfold intRange
  rw [List.mem_map]
  constructor
  · rintro ⟨i, hi, rfl⟩
    rw [List.mem_range] at hi
    omega
  · intro h
    refine ⟨(v - a).toNat, ?_, ?_⟩
    · rw [List.mem_range]
      omega
    · omega

theorem length_flatMap_map {α β γ : Type} (l : List α) (l2 : List β) (f : α → β → γ) :
    (l.flatMap fun a => l2.map (f a)).length = l.length * l2.length := by
  induction l with
  | nil => simp
  | cons a t ih =>
      simp only [List.flatMap_cons, List.length_append, List.length_map, ih, List.length_cons]
      ring

theorem mem_generate_tile_coordinates (center_lat center_lng : ℝ) (zoom : ℕ)
    (radius_km : ℝ) (tx ty : ℤ) (la ln : ℝ) :
    (tx, ty, la, ln) ∈ generate_tile_coordinates center_lat center_lng zoom radius_km ↔
      (|tx - (lat_lng_to_tile center_lat center_lng zoom).1| ≤
          calculate_tile_radius center_lat center_lng zoom radius_km ∧
       |ty - (lat_lng_to_tile center_lat center_lng zoom).2| ≤
          calculate_tile_radius center_lat center_lng zoom radius_km ∧
       la = (tile_to_lat_lng tx ty zoom).1 ∧ ln = (tile_to_lat_lng tx ty zoom).2) := by
  set c := lat_lng_to_tile center_lat center_lng zoom with hc
  set r := calculate_tile_radius center_lat center_lng zoom radius_km with hr
  simp only [generate_tile_coordinates, ← hc, ← hr, List.mem_flatMap, List.mem_map,
    Prod.mk.injEq]
  constructor
  · rintro ⟨dx, hdx, dy, hdy, h1, h2, h3, h4⟩
    rw [mem_intRange] at hdx hdy
    subst h1 h2
    refine ⟨?_, ?_, h3.symm, h4.symm⟩ <;> rw [abs_le] <;> omega
  · rintro ⟨h1, h2, rfl, rfl⟩
    rw [abs_le] at h1 h2
    exact ⟨tx - c.1, mem_intRange.mpr (by omega), ty - c.2, mem_intRange.mpr (by omega),
      by omega, by omega, by rw [show c.1 + (tx - c.1) = tx by omega,
        show c.2 + (ty - c.2) = ty by omega], by rw [show c.1 + (tx - c.1) = tx by omega,
        show c.2 + (ty - c.2) = ty by omega]⟩

theorem lat_lng_to_tile_origin : lat_lng_to_tile 0 0 1 = (1, 1) := by
  unfold lat_lng_to_tile radiansOf
  norm_num [Real.tan_zero, Real.arsinh_zero, pyTrunc]

theorem calculate_tile_radius_origin : calculate_tile_radius 0 0 1 1 = 1 := by
  unfold calculate_tile_radius
  have : (⌈(1 : ℝ) * 1000 / (40075017 / 2 ^ 1)⌉ : ℤ) = 1 := by
    rw [Int.ceil_eq_iff] <;> norm_num
  rw [this]
  norm_num

/-- Claim C5 counterexample: `tile_to_lat_lng` does not return the tile's
geometric center: for tile `(0, 0)` at zoom 1 it returns longitude `-180`
(the tile's west edge), while the tile's geometric center longitude is
`-90`. -/
theorem c5_tile_center_counterexample :
    (tile_to_lat_lng 0 0 1).2 = -180 ∧ tileCenterLng 0 1 = -90 ∧
      (tile_to_lat_lng 0 0 1).2 ≠ tileCenterLng 0 1 := by
  norm_num [tile_to_lat_lng, tileCenterLng]

/-- Claim C5 (amended): `tile_to_lat_lng` returns the geographic point of
the tile's northwest corner (not its geometric center), and for every
integer tile the roundtrip `lat_lng_to_tile (tile_to_lat_lng t) zoom = t`
holds exactly. -/
theorem c5_tile_roundtrip_amended :
    ∀ (x y : ℤ) (zoom : ℕ),
      lat_lng_to_tile (tile_to_lat_lng x y zoom).1 (tile_to_lat_lng x y zoom).2 zoom =
        (x, y) := by
  intro x y zoom
  have hn : (2 : ℝ) ^ zoom ≠ 0 := by positivity
  unfold lat_lng_to_tile tile_to_lat_lng
  have e1 : ((x : ℝ) / 2 ^ zoom * 360 - 180 + 180) / 360 * 2 ^ zoom = (x : ℝ) := by
    field_simp
    ring
  have e2 : radiansOf (degreesOf (Real.arctan (Real.sinh
      (Real.pi * (1 - 2 * (y : ℝ) / 2 ^ zoom))))) =
      Real.arctan (Real.sinh (Real.pi * (1 - 2 * (y : ℝ) / 2 ^ zoom))) := by
    unfold radiansOf degreesOf
    field_simp
  rw [e1, e2, Real.tan_arctan, Real.arsinh_sinh]
  have hpi : Real.pi ≠ 0 := Real.pi_ne_zero
  have e3 : (1 - Real.pi * (1 - 2 * (y : ℝ) / 2 ^ zoom) / Real.pi) / 2 * 2 ^ zoom =
      (y : ℝ) := by
    field_simp
    ring
  rw [e3, pyTrunc_intCast, pyTrunc_intCast]

/-- Claim C4 counterexample: the generated grid pairs tile `(0, 0)` (a
member of the zoom-1 grid around center `(0, 0)` with radius 1 km) with
longitude `-180`, which is not the tile's geometric center longitude `-90` —
the paired point is the tile corner, not its center. -/
theorem c4_grid_counterexample :
    (0, 0, (tile_to_lat_lng 0 0 1).1, (tile_to_lat_lng 0 0 1).2) ∈
        generate_tile_coordinates 0 0 1 1 ∧
      (tile_to_lat_lng 0 0 1).2 = -180 ∧ tileCenterLng 0 1 = -90 ∧
      (tile_to_lat_lng 0 0 1).2 ≠ tileCenterLng 0 1 := by
  refine ⟨?_, by norm_num [tile_to_lat_lng, tileCenterLng]⟩
  rw [mem_generate_tile_coordinates, lat_lng_to_tile_origin, calculate_tile_radius_origin]
  norm_num

/-- Claim C4 (amended): grid generation produces exactly the square set of
`(2r+1)²` tile coordinates around the center tile (`r ≥ 1` the computed
tile radius), each paired with the geographic point of the tile's northwest
corner (not its geometric center); the orchestrator's subsequent sort is a
permutation of the grid ordered by ascending Manhattan distance from the
center tile. -/
theorem c4_grid_generation_amended :
    ∀ (center_lat center_lng : ℝ) (zoom : ℕ) (radius_km : ℝ),
      1 ≤ calculate_tile_radius center_lat center_lng zoom radius_km ∧
      (generate_tile_coordinates center_lat center_lng zoom radius_km).length =
        (2 * (calculate_tile_radius center_lat center_lng zoom radius_km).toNat + 1) ^ 2 ∧
      (∀ (tx ty : ℤ) (la ln : ℝ),
        (tx, ty, la, ln) ∈ generate_tile_coordinates center_lat center_lng zoom radius_km ↔
          (|tx - (lat_lng_to_tile center_lat center_lng zoom).1| ≤
              calculate_tile_radius center_lat center_lng zoom radius_km ∧
           |ty - (lat_lng_to_tile center_lat center_lng zoom).2| ≤
              calculate_tile_radius center_lat center_lng zoom radius_km ∧
           la = (tile_to_lat_lng tx ty zoom).1 ∧ ln = (tile_to_lat_lng tx ty zoom).2)) ∧
      (∀ (cx cy : ℤ) (ts : List (ℤ × ℤ × ℝ × ℝ)),
        List.Perm (sortTilesByDistance cx cy ts) ts ∧
        (sortTilesByDistance cx cy ts).Pairwise
          (fun t u => manhattanKey cx cy t ≤ manhattanKey cx cy u)) := by
  intro center_lat center_lng zoom radius_km
  set r := calculate_tile_radius center_lat center_lng zoom radius_km with hr
  have hr1 : 1 ≤ r := le_max_left _ _
  refine ⟨hr1, ?_, mem_generate_tile_coordinates center_lat center_lng zoom radius_km,
    fun cx cy ts => ⟨List.mergeSort_perm ts _, ?_⟩⟩
  · have hL : (intRange (-r) r).length = 2 * r.toNat + 1 := by
      rw [intRange_length]
      omega
    have hG : (generate_tile_coordinates center_lat center_lng zoom radius_km).length =
        (intRange (-r) r).length * (intRange (-r) r).length := by
      simp only [generate_tile_coordinates, ← hr]
      exact length_flatMap_map _ _ _
    rw [hG, hL]
    ring
  · have hs := @List.sorted_mergeSort (ℤ × ℤ × ℝ × ℝ)
      (fun a b => decide (manhattanKey cx cy a ≤ manhattanKey cx cy b))
      (fun a b c h1 h2 => by
        simp only [decide_eq_true_eq] at h1 h2 ⊢
        exact le_trans h1 h2)
      (fun a b => by
        simp only [Bool.or_eq_true, decide_eq_true_eq]
        exact le_total _ _) ts
    exact hs.imp (fun h => by simpa using h)

/-! Place records and the search orchestrator (`search_places`,
lines 805–931)

The network and the extractor are abstracted: each tile's fetch + decode +
extract either fails (the tile's caught exception, `none`) or yields the
list of extracted place records.  The orchestrator only inspects a record's
name and address, so a record is modelled by those two fields. -/

/-- The fields of an extracted place record inspected by the dedupe loop:
`place.get('name')` (an empty string models a falsy name) and
`place.get('address', '')` (the address stays Python `None` when the
address components were absent). -/
structure Place where
  name : String
  address : Option String
deriving DecidableEq

/-- The dedupe key built at line 868,
`f"{place['name']}_{place.get('address', '')}"`: an absent address renders
as the Python string `None`. -/
def placeKey (p : Place) : String :=
  p.name ++ "_" ++ (match p.address with | some a => a | none => "None")

/-- Sample place for witnesses. -/
def placeA : Place := ⟨"A", none⟩

/-- Second sample place for witnesses. -/
def placeB : Place := ⟨"B", some "addr"⟩

/-- The per-tile accumulation loop (lines 864–875): walk the extracted
places, keep each named place whose dedupe key is unseen, and break as soon
as `max_results` is reached. -/
def accumulate (max_results : ℕ) :
    List Place → List Place × List String → List Place × List String
  | [], s => s
  | p :: rest, (all_places, unique_places) =>
    if p.name = "" then accumulate max_results rest (all_places, unique_places)
    else if placeKey p ∈ unique_places then
      accumulate max_results rest (all_places, unique_places)
    else if max_results ≤ (all_places ++ [p]).length then
      (all_places ++ [p], placeKey p :: unique_places)
    else accumulate max_results rest (all_places ++ [p], placeKey p :: unique_places)

/-- One zoom level's tile loop (lines 850–886): before each tile, stop if
the cap is reached; a failed tile (`none`, the caught per-tile exception of
lines 879–881) contributes zero places and the loop continues. -/
def processTiles (max_results : ℕ) :
    List (Option (List Place)) → List Place × List String → List Place × List String
  | [], s => s
  | r :: rest, s =>
    if max_results ≤ s.1.length then s
    else
      match r with
      | none => processTiles max_results rest s
      | some places => processTiles max_results rest (accumulate max_results places s)

/-- The zoom-index update after a zoom level completes (lines 892–905):
zero new uniques skip `min 5 remaining` extra levels when any remain;
otherwise the sweep advances by exactly one level. -/
def nextZoomIdx (num_zooms zoom_idx new_unique : ℕ) : ℕ :=
  if new_unique = 0 then
    if 0 < min 5 (num_zooms - zoom_idx - 1) then
      zoom_idx + min 5 (num_zooms - zoom_idx - 1) + 1
    else zoom_idx + 1
  else zoom_idx + 1

theorem le_nextZoomIdx (num_zooms zoom_idx new_unique : ℕ) :
    zoom_idx + 1 ≤ nextZoomIdx num_zooms zoom_idx new_unique := by
  unfold nextZoomIdx
  split
  · split <;> omega
  · omega

/-- The multi-zoom sweep loop of `search_places` (lines 823–905): process
the tile results of the zoom level at the current index, then advance the
index adaptively; stop when the cap is reached or the zoom list is
exhausted. -/
def sweepZooms (max_results num_zooms : ℕ) (oracle : ℕ → List (Option (List Place)))
    (zoom_idx : ℕ) (s : List Place × List String) : List Place × List String :=
  if h : zoom_idx < num_zooms then
    if max_results ≤ s.1.length then s
    else
      let s2 := processTiles max_results (oracle zoom_idx) s
      sweepZooms max_results num_zooms oracle
        (nextZoomIdx num_zooms zoom_idx (s2.1.length - s.1.length)) s2
  else s
termination_by num_zooms - zoom_idx
decreasing_by
  have h2 := le_nextZoomIdx num_zooms zoom_idx
    ((processTiles max_results (oracle zoom_idx) s).1.length - s.1.length)
  omega

/-- The final cap of lines 926–928: Python `if max_results and
len(all_places) > max_results` — a zero cap is falsy and truncates
nothing. -/
def truncateResults (max_results : ℕ) (all_places : List Place) : List Place :=
  if max_results ≠ 0 ∧ max_results < all_places.length then all_places.take max_results
  else all_places

/-- Source `search_places` (lines 805–931): the tiled multi-zoom path for
`max_results > 20` (its per-zoom tile results given by `oracle`), otherwise
the single-request path (`single_response = none` models the caught
request/processing exception of lines 919–924, returning `[]`); both paths
end with the final cap. -/
def search_places (max_results min_zoom : ℕ) (radius_km : ℚ)
    (oracle : ℕ → List (Option (List Place)))
    (single_response : Option (List Place)) : List Place :=
  if 20 < max_results then
    truncateResults max_results
      (sweepZooms max_results (get_zoom_levels radius_km min_zoom).length oracle 0 ([], [])).1
  else
    match single_response with
    | some places => truncateResults max_results places
    | none => []

/-- The session invariant maintained by the accumulation loop: the dedupe
keys of the accumulated records are pairwise distinct, and the `seen` set
holds exactly those keys. -/
def SessionInv (s : List Place × List String) : Prop :=
  (s.1.map placeKey).Nodup ∧ ∀ k, k ∈ s.2 ↔ k ∈ s.1.map placeKey

theorem nodup_concat {α : Type} (l : List α) (a : α) :
    (l ++ [a]).Nodup ↔ l.Nodup ∧ a ∉ l := by
  simp [List.nodup_append]

theorem truncateResults_length_le {m : ℕ} (hm : 1 ≤ m) (l : List Place) :
    (truncateResults m l).length ≤ m := by
  unfold truncateResults
  by_cases h : m ≠ 0 ∧ m < l.length
  · rw [if_pos h]
    simp [List.length_take]
  · rw [if_neg h]
    rcases not_and_or.mp h with h1 | h2
    · omega
    · omega

theorem accumulate_length_mono (m : ℕ) (ps : List Place) :
    ∀ (acc : List Place) (seen : List String),
      acc.length ≤ (accumulate m ps (acc, seen)).1.length := by
  induction ps with
  | nil => intro acc seen; simp [accumulate]
  | cons p rest ih =>
      intro acc seen
      simp only [accumulate]
      split
      · exact ih acc seen
      · split
        · exact ih acc seen
        · split
          · simp
          · calc acc.length ≤ (acc ++ [p]).length := by simp
              _ ≤ _ := ih _ _

theorem accumulate_seen_mono (m : ℕ) (ps : List Place) :
    ∀ (acc : List Place) (seen : List String) (k : String),
      k ∈ seen → k ∈ (accumulate m ps (acc, seen)).2 := by
  induction ps with
  | nil => intro acc seen k hk; simpa [accumulate] using hk
  | cons p rest ih =>
      intro acc seen k hk
      simp only [accumulate]
      split
      · exact ih acc seen k hk
      · split
        · exact ih acc seen k hk
        · split
          · exact List.mem_cons_of_mem _ hk
          · exact ih _ _ k (List.mem_cons_of_mem _ hk)

theorem accumulate_inv (m : ℕ) (ps : List Place) :
    ∀ (acc : List Place) (seen : List String),
      SessionInv (acc, seen) → SessionInv (accumulate m ps (acc, seen)) := by
  induction ps with
  | nil => intro acc seen h; simpa [accumulate] using h
  | cons p rest ih =>
      intro acc seen h
      simp only [accumulate]
      split
      · exact ih acc seen h
      · split
        case isTrue hseen => exact ih acc seen h
        case isFalse hseen =>
          have hkey : placeKey p ∉ acc.map placeKey := fun hmem => hseen ((h.2 _).mpr hmem)
          have hinv2 : SessionInv (acc ++ [p], placeKey p :: seen) := by
            constructor
            · rw [List.map_append]
              simp only [List.map_cons, List.map_nil]
              rw [nodup_concat]
              exact ⟨h.1, hkey⟩
            · intro k
              simp only [List.mem_cons, List.map_append, List.mem_append, List.map_cons,
                List.map_nil, List.mem_singleton, h.2 k]
              tauto
          split
          · exact hinv2
          · exact ih _ _ hinv2

theorem accumulate_mem (m : ℕ) (ps : List Place) :
    ∀ (acc : List Place) (seen : List String) (p : Place),
      (accumulate m ps (acc, seen)).1.length < m → p ∈ ps → p.name ≠ "" →
      placeKey p ∈ (accumulate m ps (acc, seen)).2 := by
  induction ps with
  | nil => intro acc seen p _ hp _; simp at hp
  | cons q rest ih =>
      intro acc seen p hlen hp hname
      rcases List.mem_cons.mp hp with rfl | hp2
      · simp only [accumulate, if_neg hname] at hlen ⊢
        by_cases h2 : placeKey p ∈ seen
        · rw [if_pos h2] at hlen ⊢
          exact accumulate_seen_mono m rest acc seen _ h2
        · rw [if_neg h2] at hlen ⊢
          by_cases h3 : m ≤ (acc ++ [p]).length
          · rw [if_pos h3] at hlen ⊢
            exfalso
            simp only [List.length_append, List.length_singleton] at hlen h3
            omega
          · rw [if_neg h3] at hlen ⊢
            exact accumulate_seen_mono m rest _ _ _ (List.mem_cons_self _ _)
      · simp only [accumulate] at hlen ⊢
        by_cases h1 : q.name = ""
        · rw [if_pos h1] at hlen ⊢
          exact ih acc seen p hlen hp2 hname
        · rw [if_neg h1] at hlen ⊢
          by_cases h2 : placeKey q ∈ seen
          · rw [if_pos h2] at hlen ⊢
            exact ih acc seen p hlen hp2 hname
          · rw [if_neg h2] at hlen ⊢
            by_cases h3 : m ≤ (acc ++ [q]).length
            · rw [if_pos h3] at hlen ⊢
              exfalso
              simp only [List.length_append, List.length_singleton] at hlen h3
              omega
            · rw [if_neg h3] at hlen ⊢
              exact ih _ _ p hlen hp2 hname

theorem processTiles_length_mono (m : ℕ) (rs : List (Option (List Place))) :
    ∀ (acc : List Place) (seen : List String),
      acc.length ≤ (processTiles m rs (acc, seen)).1.length := by
  induction rs with
  | nil => intro acc seen; simp [processTiles]
  | cons r rest ih =>
      intro acc seen
      simp only [processTiles]
      split
      · exact le_refl _
      · cases r with
        | none => exact ih acc seen
        | some l =>
            show acc.length ≤ (processTiles m rest (accumulate m l (acc, seen))).1.length
            rcases hacc : accumulate m l (acc, seen) with ⟨acc2, seen2⟩
            calc acc.length ≤ acc2.length := by
                  have := accumulate_length_mono m l acc seen
                  rw [hacc] at this
                  exact this
              _ ≤ _ := ih acc2 seen2

theorem processTiles_seen_mono (m : ℕ) (rs : List (Option (List Place))) :
    ∀ (acc : List Place) (seen : List String) (k : String),
      k ∈ seen → k ∈ (processTiles m rs (acc, seen)).2 := by
  induction rs with
  | nil => intro acc seen k hk; simpa [processTiles] using hk
  | cons r rest ih =>
      intro acc seen k hk
      simp only [processTiles]
      split
      · exact hk
      · cases r with
        | none => exact ih acc seen k hk
        | some l =>
            show k ∈ (processTiles m rest (accumulate m l (acc, seen))).2
            rcases hacc : accumulate m l (acc, seen) with ⟨acc2, seen2⟩
            have h2 := accumulate_seen_mono m l acc seen k hk
            rw [hacc] at h2
            exact ih acc2 seen2 k h2

theorem processTiles_inv (m : ℕ) (rs : List (Option (List Place))) :
    ∀ (acc : List Place) (seen : List String),
      SessionInv (acc, seen) → SessionInv (processTiles m rs (acc, seen)) := by
  induction rs with
  | nil => intro acc seen h; simpa [processTiles] using h
  | cons r rest ih =>
      intro acc seen h
      simp only [processTiles]
      split
      · exact h
      · cases r with
        | none => exact ih acc seen h
        | some l =>
            show SessionInv (processTiles m rest (accumulate m l (acc, seen)))
            rcases hacc : accumulate m l (acc, seen) with ⟨acc2, seen2⟩
            have h2 := accumulate_inv m l acc seen h
            rw [hacc] at h2
            exact ih acc2 seen2 h2

theorem processTiles_saturated (m : ℕ) (rs : List (Option (List Place)))
    (acc : List Place) (seen : List String) (h : m ≤ acc.length) :
    processTiles m rs (acc, seen) = (acc, seen) := by
  cases rs with
  | nil => rfl
  | cons r rest => simp [processTiles, h]

theorem processTiles_mem (m : ℕ) (rs : List (Option (List Place))) :
    ∀ (acc : List Place) (seen : List String) (i : ℕ) (l : List Place) (p : Place),
      (processTiles m rs (acc, seen)).1.length < m →
      rs[i]? = some (some l) → p ∈ l → p.name ≠ "" →
      placeKey p ∈ (processTiles m rs (acc, seen)).2 := by
  induction rs with
  | nil => intro acc seen i l p _ hi _ _; simp at hi
  | cons r rest ih =>
      intro acc seen i l p hlen hi hp hname
      simp only [processTiles] at hlen ⊢
      by_cases hcap : m ≤ acc.length
      · rw [if_pos hcap] at hlen
        exfalso
        have hlen2 : acc.length < m := hlen
        omega
      · rw [if_neg hcap] at hlen ⊢
        cases i with
        | zero =>
            simp only [List.getElem?_cons_zero, Option.some.injEq] at hi
            subst hi
            have hlen3 :
                (processTiles m rest (accumulate m l (acc, seen))).1.length < m := hlen
            show placeKey p ∈ (processTiles m rest (accumulate m l (acc, seen))).2
            rcases hacc : accumulate m l (acc, seen) with ⟨acc2, seen2⟩
            rw [hacc] at hlen3
            have h3 : acc2.length < m := by
              have := processTiles_length_mono m rest acc2 seen2
              omega
            have h4 := accumulate_mem m l acc seen p (by rw [hacc]; exact h3) hp hname
            rw [hacc] at h4
            exact processTiles_seen_mono m rest acc2 seen2 _ h4
        | succ j =>
            simp only [List.getElem?_cons_succ] at hi
            cases r with
            | none => exact ih acc seen j l p hlen hi hp hname
            | some l2 =>
                have hlen3 :
                    (processTiles m rest (accumulate m l2 (acc, seen))).1.length < m := hlen
                show placeKey p ∈ (processTiles m rest (accumulate m l2 (acc, seen))).2
                rcases hacc : accumulate m l2 (acc, seen) with ⟨acc2, seen2⟩
                rw [hacc] at hlen3
                exact ih acc2 seen2 j l p hlen3 hi hp hname

theorem sweepZooms_inv (m n : ℕ) (oracle : ℕ → List (Option (List Place))) :
    ∀ (gas i : ℕ) (acc : List Place) (seen : List String),
      n - i ≤ gas → SessionInv (acc, seen) →
      SessionInv (sweepZooms m n oracle i (acc, seen)) := by
  intro gas
  induction gas with
  | zero =>
      intro i acc seen hg hs
      rw [sweepZooms, dif_neg (by omega)]
      exact hs
  | succ g ih =>
      intro i acc seen hg hs
      rw [sweepZooms]
      by_cases h : i < n
      · rw [dif_pos h]
        by_cases hcap : m ≤ acc.length
        · rw [if_pos hcap]
          exact hs
        · rw [if_neg hcap]
          rcases hpt : processTiles m (oracle i) (acc, seen) with ⟨acc2, seen2⟩
          have hinv2 := processTiles_inv m (oracle i) acc seen hs
          rw [hpt] at hinv2
          have hgas : n - nextZoomIdx n i (acc2.length - acc.length) ≤ g := by
            have := le_nextZoomIdx n i (acc2.length - acc.length)
            omega
          have := ih (nextZoomIdx n i (acc2.length - acc.length)) acc2 seen2 hgas hinv2
          simpa [hpt] using this
      · rw [dif_neg h]
        exact hs

theorem sweepZooms_saturated (m n : ℕ) (oracle : ℕ → List (Option (List Place)))
    (i : ℕ) (acc : List Place) (seen : List String) (h : m ≤ acc.length) :
    sweepZooms m n oracle i (acc, seen) = (acc, seen) := by
  rw [sweepZooms]
  by_cases h2 : i < n
  · rw [dif_pos h2, if_pos h]
  · rw [dif_neg h2]

theorem processTiles_mapErr (m : ℕ) (rs : List (Option (List Place))) :
    ∀ (acc : List Place) (seen : List String),
      processTiles m rs (acc, seen) =
        processTiles m (rs.map (fun r => some (r.getD []))) (acc, seen) := by
  induction rs with
  | nil => intro acc seen; rfl
  | cons r rest ih =>
      intro acc seen
      simp only [List.map_cons, processTiles]
      split
      · rfl
      · cases r with
        | none => simpa [accumulate] using ih acc seen
        | some l =>
            rcases hacc : accumulate m l (acc, seen) with ⟨acc2, seen2⟩
            simpa [Option.getD, hacc] using ih acc2 seen2

theorem sweepZooms_mapErr (m n : ℕ) (oracle : ℕ → List (Option (List Place))) :
    ∀ (gas i : ℕ) (acc : List Place) (seen : List String),
      n - i ≤ gas →
      sweepZooms m n oracle i (acc, seen) =
        sweepZooms m n (fun j => (oracle j).map (fun r => some (r.getD []))) i
          (acc, seen) := by
  intro gas
  induction gas with
  | zero =>
      intro i acc seen hg
      have hn : ¬ i < n := by omega
      conv_lhs => rw [sweepZooms]
      conv_rhs => rw [sweepZooms]
      rw [dif_neg hn, dif_neg hn]
  | succ g ih =>
      intro i acc seen hg
      conv_lhs => rw [sweepZooms]
      conv_rhs => rw [sweepZooms]
      by_cases h : i < n
      · rw [dif_pos h, dif_pos h]
        by_cases hcap : m ≤ acc.length
        · rw [if_pos hcap, if_pos hcap]
        · rw [if_neg hcap, if_neg hcap]
          rcases hpt : processTiles m (oracle i) (acc, seen) with ⟨acc2, seen2⟩
          have hmap := processTiles_mapErr m (oracle i) acc seen
          rw [hpt] at hmap
          rw [← hmap]
          have hgas : n - nextZoomIdx n i (acc2.length - acc.length) ≤ g := by
            have := le_nextZoomIdx n i (acc2.length - acc.length)
            omega
          exact ih (nextZoomIdx n i (acc2.length - acc.length)) acc2 seen2 hgas
      · rw [dif_neg h, dif_neg h]

theorem get_zoom_levels_get (radius : ℚ) (min_zoom i : ℕ)
    (h : i < (get_zoom_levels radius min_zoom).length) :
    (get_zoom_levels radius min_zoom).get ⟨i, h⟩ = max 10 min_zoom + i := by
  simp [get_zoom_levels, List.get_eq_getElem, List.getElem_range']

theorem nextZoomIdx_zero (num_zooms i : ℕ) (h : i + 1 < num_zooms) :
    nextZoomIdx num_zooms i 0 = i + 1 + min 5 (num_zooms - i - 1) := by
  unfold nextZoomIdx
  rw [if_pos rfl, if_pos (by omega)]
  omega

/-- Claim C1 counterexample: with `maxResults = 0` the single-request path
returns an un-truncated, non-empty result — Python `if max_results and ...`
treats the zero cap as falsy and skips the final truncation — so the output
length exceeds `n = 0`. -/
theorem c1_result_cap_counterexample :
    ¬ ((search_places 0 13 10 (fun _ => []) (some [placeA])).length ≤ 0) := by
  decide

/-- Claim C1 (amended): for every search invocation with `maxResults = n ≥
1` the returned sequence has length at most `n`; and in the tiled path,
once the accumulated count has reached the cap, both the tile loop and the
zoom sweep return their state unchanged — no further tile results are
consumed and the sweep terminates. -/
theorem c1_result_cap_amended :
    (∀ (m min_zoom : ℕ) (radius : ℚ) (oracle : ℕ → List (Option (List Place)))
        (single : Option (List Place)), 1 ≤ m →
        (search_places m min_zoom radius oracle single).length ≤ m) ∧
    (∀ (m : ℕ) (rs : List (Option (List Place))) (acc : List Place) (seen : List String),
        m ≤ acc.length → processTiles m rs (acc, seen) = (acc, seen)) ∧
    (∀ (m n : ℕ) (oracle : ℕ → List (Option (List Place))) (i : ℕ) (acc : List Place)
        (seen : List String), m ≤ acc.length →
        sweepZooms m n oracle i (acc, seen) = (acc, seen)) := by
  refine ⟨?_, ?_, ?_⟩
  · intro m min_zoom radius oracle single hm
    unfold search_places
    by_cases h : 20 < m
    · rw [if_pos h]
      exact truncateResults_length_le hm _
    · rw [if_neg h]
      cases single with
      | some places => exact truncateResults_length_le hm _
      | none => simp
  · intro m rs acc seen h
    exact processTiles_saturated m rs acc seen h
  · intro m n oracle i acc seen h
    exact sweepZooms_saturated m n oracle i acc seen h

/-- Witness for C1 (amended): cap 1 bounds the output; a saturated state is
a fixpoint of the tile loop and of the sweep. -/
theorem c1_result_cap_amended_witness :
    (search_places 1 13 10 (fun _ => []) (some [placeA, placeB])).length ≤ 1 ∧
    processTiles 1 [some [placeB]] ([placeA], [placeKey placeA]) =
      ([placeA], [placeKey placeA]) ∧
    sweepZooms 1 3 (fun _ => []) 0 ([placeA], [placeKey placeA]) =
      ([placeA], [placeKey placeA]) := by
  refine ⟨c1_result_cap_amended.1 1 13 10 (fun _ => []) (some [placeA, placeB]) (by norm_num),
    c1_result_cap_amended.2.1 1 [some [placeB]] [placeA] [placeKey placeA] (by simp),
    c1_result_cap_amended.2.2 1 3 (fun _ => []) 0 [placeA] [placeKey placeA] (by simp)⟩

/-- Claim C2: in the tiled path the dedupe key `name + "_" + address` is
unique among accumulated records for the lifetime of the session — the
emitted records carry pairwise-distinct dedupe keys — and a named place
surfaced by any tile of a tile loop that ends below the cap (two tiles
surfacing it, or one tile twice, included) yields exactly one accumulated
record with that key. -/
theorem c2_dedupe_key_unique :
    (∀ (m min_zoom : ℕ) (radius : ℚ) (oracle : ℕ → List (Option (List Place)))
        (single : Option (List Place)), 20 < m →
        ((search_places m min_zoom radius oracle single).map placeKey).Nodup) ∧
    (∀ (m : ℕ) (rs : List (Option (List Place))) (acc : List Place) (seen : List String)
        (i : ℕ) (l : List Place) (p : Place),
        SessionInv (acc, seen) → (processTiles m rs (acc, seen)).1.length < m →
        rs[i]? = some (some l) → p ∈ l → p.name ≠ "" →
        ((processTiles m rs (acc, seen)).1.map placeKey).count (placeKey p) = 1) := by
  constructor
  · intro m min_zoom radius oracle single hm
    unfold search_places
    rw [if_pos hm]
    have hinv0 : SessionInv ([], []) := ⟨List.nodup_nil, fun k => Iff.rfl⟩
    have hinv := sweepZooms_inv m (get_zoom_levels radius min_zoom).length oracle
      (get_zoom_levels radius min_zoom).length 0 [] [] (by omega) hinv0
    rcases hsw : sweepZooms m (get_zoom_levels radius min_zoom).length oracle 0 ([], [])
      with ⟨accF, seenF⟩
    rw [hsw] at hinv
    have hnd : (accF.map placeKey).Nodup := hinv.1
    unfold truncateResults
    split
    · exact List.Nodup.sublist ((List.take_sublist m accF).map placeKey) hnd
    · exact hnd
  · intro m rs acc seen i l p hinv hlen hi hp hname
    have hmem := processTiles_mem m rs acc seen i l p hlen hi hp hname
    have hinv2 := processTiles_inv m rs acc seen hinv
    rcases hpt : processTiles m rs (acc, seen) with ⟨acc2, seen2⟩
    rw [hpt] at hmem hinv2
    exact List.count_eq_one_of_mem hinv2.1 ((hinv2.2 _).mp hmem)

/-- Witness for C2: a sweep whose tiles repeat a place emits distinct keys,
and the repeated place is accumulated exactly once. -/
theorem c2_dedupe_key_unique_witness :
    ((search_places 21 13 10 (fun _ => [some [placeA, placeB], some [placeA]])
        none).map placeKey).Nodup ∧
    ((processTiles 21 [some [placeA], some [placeA]] ([], [])).1.map placeKey).count
        (placeKey placeA) = 1 := by
  constructor
  · exact c2_dedupe_key_unique.1 21 13 10
      (fun _ => [some [placeA, placeB], some [placeA]]) none (by norm_num)
  · exact c2_dedupe_key_unique.2 21 [some [placeA], some [placeA]] [] [] 1 [placeA] placeA
      ⟨List.nodup_nil, fun k => Iff.rfl⟩ (by decide) (by decide) (by decide) (by decide)

/-- Claim C6: when a processed zoom level yields zero new unique records
and zoom levels remain, the sweep's next index is the current one plus
`min 5 remaining` plus one, so — the computed zoom list being consecutive —
the next processed zoom level is at least the current zoom + 2 and at most
+ 6; when new uniques were found the index advances by exactly one. -/
theorem c6_adaptive_zoom_skip :
    (∀ (num_zooms i : ℕ), i + 1 < num_zooms →
        nextZoomIdx num_zooms i 0 = i + 1 + min 5 (num_zooms - i - 1) ∧
        i + 2 ≤ nextZoomIdx num_zooms i 0 ∧ nextZoomIdx num_zooms i 0 ≤ i + 6) ∧
    (∀ (num_zooms i k : ℕ), k ≠ 0 → nextZoomIdx num_zooms i k = i + 1) ∧
    (∀ (radius : ℚ) (min_zoom i : ℕ)
        (h1 : i + 1 < (get_zoom_levels radius min_zoom).length)
        (h2 : nextZoomIdx (get_zoom_levels radius min_zoom).length i 0 <
          (get_zoom_levels radius min_zoom).length),
        (get_zoom_levels radius min_zoom).get ⟨i, by omega⟩ + 2 ≤
          (get_zoom_levels radius min_zoom).get
            ⟨nextZoomIdx (get_zoom_levels radius min_zoom).length i 0, h2⟩ ∧
        (get_zoom_levels radius min_zoom).get
            ⟨nextZoomIdx (get_zoom_levels radius min_zoom).length i 0, h2⟩ ≤
          (get_zoom_levels radius min_zoom).get ⟨i, by omega⟩ + 6) := by
  refine ⟨?_, ?_, ?_⟩
  · intro num_zooms i h
    have he := nextZoomIdx_zero num_zooms i h
    refine ⟨he, by omega, by omega⟩
  · intro num_zooms i k hk
    unfold nextZoomIdx
    rw [if_neg hk]
  · intro radius min_zoom i h1 h2
    rw [get_zoom_levels_get radius min_zoom i (by omega),
      get_zoom_levels_get radius min_zoom _ h2,
      nextZoomIdx_zero _ i h1]
    omega

/-- Witness for C6: twelve zoom levels, zero new uniques at index 0: the
next index is 6 = 0 + 1 + min 5 11; three new uniques advance by one; on
the zoom list for minimum zoom 13 the level jumps from 13 to 19. -/
theorem c6_adaptive_zoom_skip_witness :
    (nextZoomIdx 12 0 0 = 0 + 1 + min 5 11 ∧
      0 + 2 ≤ nextZoomIdx 12 0 0 ∧ nextZoomIdx 12 0 0 ≤ 0 + 6) ∧
    nextZoomIdx 12 0 3 = 0 + 1 ∧
    ((get_zoom_levels 10 13).get ⟨0, by decide⟩ + 2 ≤
        (get_zoom_levels 10 13).get
          ⟨nextZoomIdx (get_zoom_levels 10 13).length 0 0, by decide⟩ ∧
      (get_zoom_levels 10 13).get
          ⟨nextZoomIdx (get_zoom_levels 10 13).length 0 0, by decide⟩ ≤
        (get_zoom_levels 10 13).get ⟨0, by decide⟩ + 6) := by
  refine ⟨c6_adaptive_zoom_skip.1 12 0 (by norm_num),
    c6_adaptive_zoom_skip.2.1 12 0 3 (by norm_num),
    c6_adaptive_zoom_skip.2.2 10 13 0 (by decide) (by decide)⟩

/-- Claim C7: per-tile failures are contained at tile granularity — for the
tile loop and for the whole sweep, a failed tile is indistinguishable from
a tile contributing zero places and processing continues — and the
single-request path maps its caught request/processing failure to the empty
result; the embedded search is a total function, so no failure reaches the
caller. -/
theorem c7_failure_containment :
    (∀ (m : ℕ) (rs : List (Option (List Place))) (acc : List Place) (seen : List String),
        processTiles m rs (acc, seen) =
          processTiles m (rs.map (fun r => some (r.getD []))) (acc, seen)) ∧
    (∀ (m n : ℕ) (oracle : ℕ → List (Option (List Place))) (i : ℕ) (acc : List Place)
        (seen : List String),
        sweepZooms m n oracle i (acc, seen) =
          sweepZooms m n (fun j => (oracle j).map (fun r => some (r.getD []))) i
            (acc, seen)) ∧
    (∀ (m min_zoom : ℕ) (radius : ℚ) (oracle : ℕ → List (Option (List Place))),
        m ≤ 20 → search_places m min_zoom radius oracle none = []) := by
  refine ⟨?_, ?_, ?_⟩
  · intro m rs acc seen
    exact processTiles_mapErr m rs acc seen
  · intro m n oracle i acc seen
    exact sweepZooms_mapErr m n oracle n i acc seen (by omega)
  · intro m min_zoom radius oracle hm
    unfold search_places
    rw [if_neg (by omega)]

/-- Witness for C7: a cap-5 search whose single request fails returns the
empty result. -/
theorem c7_failure_containment_witness :
    search_places 5 13 10 (fun _ => [none]) none = [] :=
  c7_failure_containment.2.2 5 13 10 (fun _ => [none]) (by norm_num)

end GoogleMapsScraper
